import Mathlib

/-!
# bench-cpp: the benchmark harness of rust-bitcoin-blocks

A shallow embedding of `src/bench-cpp.cpp` and the properties of its hex reader,
its hex-to-bytes loop, the byte stream `MyStreamZ` and the statistics printed by
`main`.

Conventions of the embedding

* a C++ `int` and a C++ `char` are modelled by the `Int` holding their value;
  the only narrowing conversion of the file, `int → char` in `push_back`, is
  `int_to_char`;
* `size_t` is a `Nat` below `2 ^ 64`, and `size_t` additions are reduced
  modulo `2 ^ 64` where the source performs them;
* a `std::vector<char>` is a `List Int`;
* undefined behaviour that the properties below are about (an access outside a vector or
  outside the stream buffer, an overflow of the `int` counter of `hex_to_bytes`) is
  an explicit outcome, never a default value;
* `while (true)` and `for` loops are run with explicit fuel, and the theorems
  show how much fuel yields the result.
-/

namespace BenchCpp

/-! ## Data model -/

/-- Code of a character as the `int` the C++ source compares with. -/
def ord (c : Char) : Int := (c.toNat : Int)

/-- The value `fgetc` returns at end of file. -/
def EOF : Int := -1

/-- Largest value of the C++ type `int`. -/
def INT_MAX : Nat := 2147483647

/-- Number of values of the C++ type `size_t`. -/
def SIZE_MODULUS : Nat := 2 ^ 64

/-- Conversion `int → char`, as done by `std::vector<char>::push_back(int)`: the
value is reduced modulo `2 ^ 8` into the range of `char`. Whether plain `char`
is signed is implementation-defined, hence the parameter. -/
def int_to_char (char_signed : Bool) (x : Int) : Int :=
  if char_signed then (x + 128) % 256 - 128 else x % 256

/-- Undefined behaviour made explicit. `out_of_bounds`: element `index` of a vector
or buffer of `size` elements was accessed, with `size ≤ index`. `signed_overflow`:
an addition on an `int` left the range of `int`. -/
inductive Fault where
  | out_of_bounds (index size : Nat)
  | signed_overflow
  deriving DecidableEq

/-- How a run of a modelled function ends. -/
inductive Outcome (α : Type) where
  | returned (value : α)
  | undefined (fault : Fault)
  | out_of_fuel
  deriving DecidableEq

/-! ## `transform_hex_symbol` (lines 9-13) -/

/-- Source: `transform_hex_symbol`. -/
def transform_hex_symbol (c : Int) : Int :=
  if c ≥ ord '0' ∧ c ≤ ord '9' then c - ord '0'
  else if c ≥ ord 'a' ∧ c ≤ ord 'f' then c - ord 'a' + 10
  else -1

/-- A lowercase hexadecimal digit: one of `'0'..'9'`, `'a'..'f'`. -/
def is_hex_digit (c : Int) : Prop :=
  (ord '0' ≤ c ∧ c ≤ ord '9') ∨ (ord 'a' ≤ c ∧ c ≤ ord 'f')

instance (c : Int) : Decidable (is_hex_digit c) := by
  unfold is_hex_digit; infer_instance

/-- A character of the class `[0-9a-fA-F]`. -/
def is_hex_digit_any_case (c : Int) : Prop :=
  is_hex_digit c ∨ (ord 'A' ≤ c ∧ c ≤ ord 'F')

instance (c : Int) : Decidable (is_hex_digit_any_case c) := by
  unfold is_hex_digit_any_case; infer_instance

/-- The lowercase hexadecimal digits, in the order of their values: the digit of
value `k` is the `k`-th entry. -/
def hex_digits : List Char := "0123456789abcdef".toList

/-! ## `read_block_hex` (lines 22-30) -/

/-- An opened input stream: the bytes of the file that were not read yet. -/
structure FILE where
  unread : List (Fin 256)
  deriving DecidableEq

/-- Library function `fgetc`: the next byte as an `unsigned char` converted to `int`,
or `EOF` when no byte is left. -/
def fgetc (fp : FILE) : Int × FILE :=
  match fp.unread with
  | [] => (EOF, fp)
  | b :: rest => ((b.val : Int), { unread := rest })

/-- The `while (true)` loop of `read_block_hex`, with `data` the vector built so far. -/
def read_block_hex_loop (char_signed : Bool) : Nat → FILE → List Int → Outcome (List Int)
  | 0, _, _ => .out_of_fuel
  | fuel + 1, fp, data =>
    let r := fgetc fp
    let sym := r.1
    if transform_hex_symbol sym = -1 then .returned data
    else read_block_hex_loop char_signed fuel r.2 (data ++ [int_to_char char_signed sym])

/-- Source: `read_block_hex`, from the point where `fopen` has succeeded. -/
def read_block_hex (char_signed : Bool) (fuel : Nat) (fp : FILE) : Outcome (List Int) :=
  read_block_hex_loop char_signed fuel fp []

/-! ## `hex_to_bytes` (lines 37-46) -/

/-- The `for` loop of `hex_to_bytes`: `i` is the counter, `hex` the output vector so
far. `data[i]` and `data[i + 1]` are checked accesses: outside the vector the run
ends in `Fault.out_of_bounds`. The counter is an `int` that starts at `0`: the step
`i += 2` ends the run in `Fault.signed_overflow` when `i + 2` exceeds `INT_MAX`. -/
def hex_to_bytes_loop (char_signed : Bool) (data : List Int) :
    Nat → Nat → List Int → Outcome (List Int)
  | 0, _, _ => .out_of_fuel
  | fuel + 1, i, hex =>
    if i < data.length then
      match data[i]?, data[i + 1]? with
      | none, _ => .undefined (.out_of_bounds i data.length)
      | some _, none => .undefined (.out_of_bounds (i + 1) data.length)
      | some hi, some lo =>
        if i + 2 ≤ INT_MAX then
          hex_to_bytes_loop char_signed data fuel (i + 2)
            (hex ++ [int_to_char char_signed
              (transform_hex_symbol hi * 16 + transform_hex_symbol lo)])
        else .undefined .signed_overflow
    else .returned hex

/-- Source: `hex_to_bytes`. `hex.resize(data.size(), 0)` makes the output start as
`data.size()` zero bytes; the loop then appends to it. -/
def hex_to_bytes (char_signed : Bool) (fuel : Nat) (data : List Int) : Outcome (List Int) :=
  hex_to_bytes_loop char_signed data fuel 0 (List.replicate data.length 0)

/-- Spec, section 4.7 ("Produces a byte per pair"): the value `16 * hi + lo` of each
pair of digits, in input order. Written from the words of the specification, to
be compared with what `hex_to_bytes` appends. -/
def decode_pairs : List Int → List Int
  | hi :: lo :: rest =>
    (16 * transform_hex_symbol hi + transform_hex_symbol lo) :: decode_pairs rest
  | _ => []

/-! ## `MyStreamZ` (lines 48-68) -/

/-- Source: the data members of `class MyStreamZ`; `buf` is the vector the pointer
`buf` points into. -/
structure MyStreamZ where
  size : Nat
  buf : List Int
  position : Nat
  deriving DecidableEq

/-- Source: the constructor `MyStreamZ::MyStreamZ(std::vector<char>& data)` (a
structure and a function of one name cannot coexist, hence `init`). -/
def MyStreamZ.init (data : List Int) : MyStreamZ :=
  { size := data.length, buf := data, position := 0 }

/-- Representation invariant: the members are `size_t` values and `size` is the
length of the buffer, as the constructor sets it. -/
def MyStreamZ.wf (s : MyStreamZ) : Prop :=
  s.size = s.buf.length ∧ s.size < SIZE_MODULUS ∧ s.position < SIZE_MODULUS

instance (s : MyStreamZ) : Decidable s.wf := by
  unfold MyStreamZ.wf; infer_instance

/-- Library function `memcpy(pch, &buf[position], nSize)`: the `nSize` bytes copied, or
`none` when the source range leaves the buffer (undefined behaviour). -/
def memcpy (buf : List Int) (position nSize : Nat) : Option (List Int) :=
  if position + nSize ≤ buf.length then some ((buf.drop position).take nSize) else none

/-- How a call of `MyStreamZ::read` ends, with the stream state after the call. -/
inductive ReadResult where
  | ok (pch : List Int) (after : MyStreamZ)
  | threw (what : String) (after : MyStreamZ)
  | undefined
  deriving DecidableEq

/-- Source: `MyStreamZ::read`. The sum `position + nSize` is a `size_t` sum. -/
def MyStreamZ.read (s : MyStreamZ) (nSize : Nat) : ReadResult :=
  if (s.position + nSize) % SIZE_MODULUS > s.size then
    .threw "Read attempted past buffer limit" s
  else
    match memcpy s.buf s.position nSize with
    | none => .undefined
    | some pch => .ok pch { s with position := (s.position + nSize) % SIZE_MODULUS }

/-! ## The statistics of `main` (lines 81-101) -/

/-- Source: `constexpr int iters = 100`. -/
def iters : Nat := 100

/-- Source: `for (int i = 0; i < iters; ++i) sum += elapsed[i];` with `sum` starting
at `0`; an access outside `elapsed` is a fault. -/
def sum_loop (elapsed : List Int) : Nat → Nat → Int → Outcome Int
  | 0, _, _ => .out_of_fuel
  | fuel + 1, i, sum =>
    if i < iters then
      match elapsed[i]? with
      | none => .undefined (.out_of_bounds i elapsed.length)
      | some e => sum_loop elapsed fuel (i + 1) (sum + e)
    else .returned sum

/-- The three numbers `main` prints, before the scaling by `1e-6`. -/
structure Stats where
  min : Int
  average : Int
  max : Int
  deriving DecidableEq

/-- Source: lines 94-101 of `main`. `std::sort` is modelled by a sorting function of
the library; `sum / iters` is C++ integer division, which truncates. -/
def main_stats (fuel : Nat) (elapsed : List Int) : Outcome Stats :=
  match sum_loop elapsed fuel 0 0 with
  | .out_of_fuel => .out_of_fuel
  | .undefined f => .undefined f
  | .returned sum =>
    let sorted := elapsed.insertionSort (· ≤ ·)
    match sorted[0]?, sorted[iters - 1]? with
    | none, _ => .undefined (.out_of_bounds 0 sorted.length)
    | some _, none => .undefined (.out_of_bounds (iters - 1) sorted.length)
    | some lo, some hi =>
      .returned { min := lo, average := Int.tdiv sum (iters : Int), max := hi }

/-! ## Characters -/

@[simp] theorem ord_0 : ord '0' = 48 := rfl
@[simp] theorem ord_9 : ord '9' = 57 := rfl
@[simp] theorem ord_a : ord 'a' = 97 := rfl
@[simp] theorem ord_f : ord 'f' = 102 := rfl
@[simp] theorem ord_A : ord 'A' = 65 := rfl
@[simp] theorem ord_F : ord 'F' = 70 := rfl

theorem is_hex_digit_iff (c : Int) :
    is_hex_digit c ↔ (48 ≤ c ∧ c ≤ 57) ∨ (97 ≤ c ∧ c ≤ 102) := by
  simp [is_hex_digit]

/-- The character codes of the hex digits: `48..57` and `97..102`. -/
theorem hex_digits_codes :
    hex_digits.map ord = (List.range 10).map (fun k => (k : Int) + 48) ++
      (List.range 6).map (fun k => (k : Int) + 97) := by
  decide

/-- The three branches of `transform_hex_symbol`, with numeric character codes. -/
theorem transform_hex_symbol_cases (c : Int) :
    (48 ≤ c ∧ c ≤ 57 ∧ transform_hex_symbol c = c - 48) ∨
    (97 ≤ c ∧ c ≤ 102 ∧ transform_hex_symbol c = c - 87) ∨
    ((c < 48 ∨ (57 < c ∧ c < 97) ∨ 102 < c) ∧ transform_hex_symbol c = -1) := by
  unfold transform_hex_symbol
  simp only [ord_0, ord_9, ord_a, ord_f]
  split_ifs <;> omega

theorem transform_hex_symbol_ne_iff (c : Int) :
    transform_hex_symbol c ≠ -1 ↔ is_hex_digit c := by
  rw [is_hex_digit_iff]
  rcases transform_hex_symbol_cases c with h | h | h <;> omega

theorem transform_hex_symbol_range (c : Int) (h : is_hex_digit c) :
    0 ≤ transform_hex_symbol c ∧ transform_hex_symbol c ≤ 15 := by
  rw [is_hex_digit_iff] at h
  rcases transform_hex_symbol_cases c with h1 | h1 | h1 <;> omega

/-- A hex digit fits in a `char`, whatever the signedness of `char`. -/
theorem int_to_char_of_hex_digit (char_signed : Bool) (c : Int) (h : is_hex_digit c) :
    int_to_char char_signed c = c := by
  rw [is_hex_digit_iff] at h
  unfold int_to_char
  split_ifs <;> omega

/-- An element that sits, in a list cut in two, before the end of the first part
belongs to the first part. -/
theorem mem_of_append_eq_append_cons {α : Type} (pre rest p : List α) (c : α) (q : List α)
    (h : pre ++ rest = p ++ c :: q) (hlt : p.length < pre.length) : c ∈ pre := by
  rcases List.append_eq_append_iff.1 h with ⟨a, h1, _⟩ | ⟨a, h1, h2⟩
  · rw [h1] at hlt; simp at hlt
  · cases a with
    | nil => rw [h1] at hlt; simp at hlt
    | cons x a =>
      simp only [List.cons_append, List.cons.injEq] at h2
      rw [h1, h2.1]; simp

/-! ## `transform_hex_symbol` -/

/-- C6: for every `int c`, `transform_hex_symbol c` is `c - '0'` (in `0..9`) on
`'0'..'9'`, `c - 'a' + 10` (in `10..15`) on `'a'..'f'` and `-1` on every other value,
uppercase `'A'..'F'` and `EOF` included; the result is in `0..15` exactly on the
lowercase hex digits, and it is `k` exactly when `c` is the digit of value `k`. -/
theorem transform_hex_symbol_spec (c : Int) :
    (ord '0' ≤ c ∧ c ≤ ord '9' →
      transform_hex_symbol c = c - ord '0' ∧
        0 ≤ transform_hex_symbol c ∧ transform_hex_symbol c ≤ 9) ∧
    (ord 'a' ≤ c ∧ c ≤ ord 'f' →
      transform_hex_symbol c = c - ord 'a' + 10 ∧
        10 ≤ transform_hex_symbol c ∧ transform_hex_symbol c ≤ 15) ∧
    (¬ is_hex_digit c → transform_hex_symbol c = -1) ∧
    (ord 'A' ≤ c ∧ c ≤ ord 'F' → transform_hex_symbol c = -1) ∧
    (c = EOF → transform_hex_symbol c = -1) ∧
    ((0 ≤ transform_hex_symbol c ∧ transform_hex_symbol c ≤ 15) ↔ is_hex_digit c) ∧
    (∀ k : Nat, k < 16 →
      (transform_hex_symbol c = (k : Int) ↔ (hex_digits.map ord)[k]? = some c)) := by
  have hc := transform_hex_symbol_cases c
  refine ⟨?_, ?_, ?_, ?_, ?_, ?_, ?_⟩
  · simp only [ord_0, ord_9]; omega
  · simp only [ord_a, ord_f]; omega
  · rw [is_hex_digit_iff]; omega
  · simp only [ord_A, ord_F]; omega
  · unfold EOF; omega
  · rw [is_hex_digit_iff]; omega
  · intro k hk
    rcases hc with h | h | h <;>
      interval_cases k <;> simp [hex_digits_codes, List.range, List.range.loop] <;> omega

/-- C6 at `'7'`, `'f'`, `'F'` and `EOF`. -/
theorem transform_hex_symbol_spec_witness :
    transform_hex_symbol 55 = 55 - ord '0' ∧
    transform_hex_symbol 102 = 102 - ord 'a' + 10 ∧
    transform_hex_symbol 70 = -1 ∧
    transform_hex_symbol EOF = -1 ∧
    transform_hex_symbol 102 = ((15 : Nat) : Int) :=
  ⟨((transform_hex_symbol_spec 55).1 (by decide)).1,
   ((transform_hex_symbol_spec 102).2.1 (by decide)).1,
   (transform_hex_symbol_spec 70).2.2.2.1 (by decide),
   (transform_hex_symbol_spec EOF).2.2.2.2.1 rfl,
   ((transform_hex_symbol_spec 102).2.2.2.2.2.2 15 (by decide)).2 (by decide)⟩

/-! ## `read_block_hex` -/

/-- The loop of `read_block_hex` appends to `data` the longest prefix of the unread
bytes that `transform_hex_symbol` accepts, once the fuel exceeds the number of
unread bytes. -/
theorem read_block_hex_loop_eq (char_signed : Bool) :
    ∀ (content : List (Fin 256)) (fuel : Nat) (data : List Int), content.length < fuel →
      read_block_hex_loop char_signed fuel { unread := content } data =
        .returned (data ++ (content.takeWhile
          (fun b => decide (transform_hex_symbol ((b.val : Int)) ≠ -1))).map
            (fun b => (b.val : Int))) := by
  intro content
  induction content with
  | nil =>
    intro fuel data hfuel
    obtain ⟨n, rfl⟩ : ∃ n, fuel = n + 1 := ⟨fuel - 1, by simp at hfuel; omega⟩
    simp [read_block_hex_loop, fgetc, EOF, transform_hex_symbol]
  | cons b rest ih =>
    intro fuel data hfuel
    obtain ⟨n, rfl⟩ : ∃ n, fuel = n + 1 := ⟨fuel - 1, by simp at hfuel; omega⟩
    have hn : rest.length < n := by simp at hfuel; omega
    by_cases hb : transform_hex_symbol ((b.val : Int)) = -1
    · simp [read_block_hex_loop, fgetc, hb]
    · have hd : is_hex_digit ((b.val : Int)) := (transform_hex_symbol_ne_iff _).1 hb
      have hrec := ih n (data ++ [(b.val : Int)]) hn
      simp only [read_block_hex_loop, fgetc, hb, if_false,
        int_to_char_of_hex_digit char_signed _ hd, hrec]
      simp [List.takeWhile_cons, hb]

/-- C7: on every finite file content `read_block_hex` returns (fuel above the
length of the content is enough), and what it returns is the content up to the
first character that `transform_hex_symbol` rejects, all of it when there is
none: every returned character is a hex digit, and a character outside
`[0-9a-fA-F]` ends the input, nothing at or after it being returned. -/
theorem read_block_hex_spec (char_signed : Bool) (content : List (Fin 256)) (fuel : Nat)
    (hfuel : content.length < fuel) :
    ∃ pre rest, content = pre ++ rest ∧
      read_block_hex char_signed fuel { unread := content } =
        .returned (pre.map (fun b => (b.val : Int))) ∧
      pre = content.takeWhile (fun b => decide (transform_hex_symbol ((b.val : Int)) ≠ -1)) ∧
      (∀ b ∈ pre, transform_hex_symbol ((b.val : Int)) ≠ -1) ∧
      (∀ c post, rest = c :: post → transform_hex_symbol ((c.val : Int)) = -1) ∧
      (∀ x ∈ pre.map (fun b => (b.val : Int)), is_hex_digit x) ∧
      (∀ p c q, content = p ++ c :: q → ¬ is_hex_digit_any_case ((c.val : Int)) →
        pre.length ≤ p.length) := by
  have hsplit := List.takeWhile_append_dropWhile
    (fun b : Fin 256 => decide (transform_hex_symbol ((b.val : Int)) ≠ -1)) content
  have hpre : ∀ b ∈ content.takeWhile
      (fun b : Fin 256 => decide (transform_hex_symbol ((b.val : Int)) ≠ -1)),
      transform_hex_symbol ((b.val : Int)) ≠ -1 := by
    intro b hb
    simpa using List.mem_takeWhile_imp hb
  refine ⟨_, _, hsplit.symm, ?_, rfl, hpre, ?_, ?_, ?_⟩
  · simpa [read_block_hex] using read_block_hex_loop_eq char_signed content fuel [] hfuel
  · intro c post hrest
    have h := List.head_dropWhile_not
      (fun b : Fin 256 => decide (transform_hex_symbol ((b.val : Int)) ≠ -1)) content
      (by rw [hrest]; simp)
    simp only [hrest, List.head_cons] at h
    simpa using h
  · intro x hx
    obtain ⟨b, hb, rfl⟩ := List.mem_map.1 hx
    exact (transform_hex_symbol_ne_iff _).1 (hpre b hb)
  · intro p c q hcontent hc
    by_contra hlt
    have hmem := mem_of_append_eq_append_cons _ _ p c q (hsplit.trans hcontent) (by omega)
    exact hc (Or.inl ((transform_hex_symbol_ne_iff _).1 (hpre c hmem)))

/-- C7 on the content `0aF1`: the uppercase `F` ends the input. -/
theorem read_block_hex_spec_witness :
    ([48, 97, 70, 49] : List (Fin 256)).length < 5 ∧
    read_block_hex true 5 { unread := [48, 97, 70, 49] } = .returned [48, 97] := by
  refine ⟨by decide, ?_⟩
  obtain ⟨pre, rest, -, hret, hpre, -⟩ :=
    read_block_hex_spec true [48, 97, 70, 49] 5 (by decide)
  rw [hret, hpre]
  decide

/-! ## `hex_to_bytes` -/

theorem decode_pairs_length : ∀ (n : Nat) (d : List Int), d.length = 2 * n →
    (decode_pairs d).length = n := by
  intro n
  induction n with
  | zero =>
    intro d hd
    have : d = [] := List.length_eq_zero.1 (by omega)
    subst this; rfl
  | succ n ih =>
    intro d hd
    match d, hd with
    | hi :: lo :: rest, hd =>
      have hrest : rest.length = 2 * n := by simp at hd; omega
      simp [decode_pairs, ih rest hrest]

/-- The byte of a pair of hex digits lies in `0..255`, so its 8-bit pattern is the
value `16 * hi + lo` itself. -/
theorem int_to_char_pair (char_signed : Bool) (hi lo : Int)
    (hhi : is_hex_digit hi) (hlo : is_hex_digit lo) :
    int_to_char char_signed (16 * transform_hex_symbol hi + transform_hex_symbol lo) % 256 =
      16 * transform_hex_symbol hi + transform_hex_symbol lo := by
  have h1 := transform_hex_symbol_range hi hhi
  have h2 := transform_hex_symbol_range lo hlo
  unfold int_to_char
  split_ifs <;> omega

/-- With an even number of elements left from `i` on, the loop returns, having
appended one byte per pair. -/
theorem hex_to_bytes_loop_even (char_signed : Bool) (data : List Int)
    (hint : data.length ≤ INT_MAX) :
    ∀ (n fuel i : Nat) (hex : List Int), i + 2 * n = data.length → n < fuel →
      hex_to_bytes_loop char_signed data fuel i hex =
        .returned (hex ++ (decode_pairs (data.drop i)).map (int_to_char char_signed)) := by
  intro n
  induction n with
  | zero =>
    intro fuel i hex hi hfuel
    obtain ⟨f, rfl⟩ : ∃ f, fuel = f + 1 := ⟨fuel - 1, by omega⟩
    have hnot : ¬ i < data.length := by omega
    have hdrop : data.drop i = [] := List.drop_eq_nil_of_le (by omega)
    simp [hex_to_bytes_loop, hnot, hdrop, decode_pairs]
  | succ n ih =>
    intro fuel i hex hi hfuel
    obtain ⟨f, rfl⟩ : ∃ f, fuel = f + 1 := ⟨fuel - 1, by omega⟩
    have h0 : i < data.length := by omega
    have h1 : i + 1 < data.length := by omega
    have h2 : i + 2 ≤ INT_MAX := by omega
    have hdrop : data.drop i = data[i] :: data[i + 1] :: data.drop (i + 2) := by
      rw [List.drop_eq_getElem_cons h0, List.drop_eq_getElem_cons h1]
    have hrec := ih f (i + 2)
      (hex ++ [int_to_char char_signed
        (transform_hex_symbol data[i] * 16 + transform_hex_symbol data[i + 1])])
      (by omega) (by omega)
    simp only [hex_to_bytes_loop, h0, h2, if_true, List.getElem?_eq_getElem h0,
      List.getElem?_eq_getElem h1, hrec, hdrop, decode_pairs, List.map_cons]
    simp [mul_comm]

/-- With an odd number of elements left from `i` on, the loop ends in the access
`data[data.size()]`. -/
theorem hex_to_bytes_loop_odd (char_signed : Bool) (data : List Int)
    (hint : data.length ≤ INT_MAX) :
    ∀ (n fuel i : Nat) (hex : List Int), i + 2 * n + 1 = data.length → n < fuel →
      hex_to_bytes_loop char_signed data fuel i hex =
        .undefined (.out_of_bounds data.length data.length) := by
  intro n
  induction n with
  | zero =>
    intro fuel i hex hi hfuel
    obtain ⟨f, rfl⟩ : ∃ f, fuel = f + 1 := ⟨fuel - 1, by omega⟩
    have h0 : i < data.length := by omega
    have h1 : data[i + 1]? = none := List.getElem?_eq_none (by omega)
    have hidx : i + 1 = data.length := by omega
    simp [hex_to_bytes_loop, h0, List.getElem?_eq_getElem h0, h1, hidx]
  | succ n ih =>
    intro fuel i hex hi hfuel
    obtain ⟨f, rfl⟩ : ∃ f, fuel = f + 1 := ⟨fuel - 1, by omega⟩
    have h0 : i < data.length := by omega
    have h1 : i + 1 < data.length := by omega
    have h2 : i + 2 ≤ INT_MAX := by omega
    have hrec := ih f (i + 2)
      (hex ++ [int_to_char char_signed
        (transform_hex_symbol data[i] * 16 + transform_hex_symbol data[i + 1])])
      (by omega) (by omega)
    simp only [hex_to_bytes_loop, h0, h2, if_true, List.getElem?_eq_getElem h0,
      List.getElem?_eq_getElem h1, hrec]

/-- With more than `INT_MAX` elements the counter reaches `INT_MAX - 1` with both
accesses still in bounds, and the step `i += 2` overflows. -/
theorem hex_to_bytes_loop_overflow (char_signed : Bool) (data : List Int)
    (hbig : INT_MAX < data.length) :
    ∀ (n fuel i : Nat) (hex : List Int), i + 2 * n + 1 = INT_MAX → n < fuel →
      hex_to_bytes_loop char_signed data fuel i hex = .undefined .signed_overflow := by
  intro n
  induction n with
  | zero =>
    intro fuel i hex hi hfuel
    obtain ⟨f, rfl⟩ : ∃ f, fuel = f + 1 := ⟨fuel - 1, by omega⟩
    have h0 : i < data.length := by omega
    have h1 : i + 1 < data.length := by omega
    have h2 : ¬ i + 2 ≤ INT_MAX := by omega
    simp only [hex_to_bytes_loop, h0, h2, if_true, if_false, List.getElem?_eq_getElem h0,
      List.getElem?_eq_getElem h1]
  | succ n ih =>
    intro fuel i hex hi hfuel
    obtain ⟨f, rfl⟩ : ∃ f, fuel = f + 1 := ⟨fuel - 1, by omega⟩
    have h0 : i < data.length := by omega
    have h1 : i + 1 < data.length := by omega
    have h2 : i + 2 ≤ INT_MAX := by omega
    have hrec := ih f (i + 2)
      (hex ++ [int_to_char char_signed
        (transform_hex_symbol data[i] * 16 + transform_hex_symbol data[i + 1])])
      (by omega) (by omega)
    simp only [hex_to_bytes_loop, h0, h2, if_true, List.getElem?_eq_getElem h0,
      List.getElem?_eq_getElem h1, hrec]

/-- On an even-length input `hex_to_bytes` returns the `data.size()` zero bytes of the
`resize` followed by one byte per pair of digits. -/
theorem hex_to_bytes_even (char_signed : Bool) (data : List Int) (fuel : Nat)
    (hint : data.length ≤ INT_MAX)
    (heven : data.length % 2 = 0) (hfuel : data.length / 2 < fuel) :
    hex_to_bytes char_signed fuel data =
      .returned (List.replicate data.length 0 ++
        (decode_pairs data).map (int_to_char char_signed)) := by
  have h := hex_to_bytes_loop_even char_signed data hint (data.length / 2) fuel 0
    (List.replicate data.length 0) (by omega) hfuel
  simpa [hex_to_bytes] using h

/-- On an odd-length input `hex_to_bytes` reads `data[data.size()]`. -/
theorem hex_to_bytes_odd (char_signed : Bool) (data : List Int) (fuel : Nat)
    (hint : data.length ≤ INT_MAX)
    (hodd : data.length % 2 = 1) (hfuel : data.length / 2 < fuel) :
    hex_to_bytes char_signed fuel data =
      .undefined (.out_of_bounds data.length data.length) := by
  have h := hex_to_bytes_loop_odd char_signed data hint (data.length / 2) fuel 0
    (List.replicate data.length 0) (by omega) hfuel
  simpa [hex_to_bytes] using h

/-- On an input of more than `INT_MAX` elements, of either parity, the `int` counter of
`hex_to_bytes` overflows: the bound `data.size() ≤ INT_MAX` of the properties below
is needed. -/
theorem hex_to_bytes_overflow (char_signed : Bool) (data : List Int) (fuel : Nat)
    (hbig : INT_MAX < data.length) (hfuel : INT_MAX / 2 < fuel) :
    hex_to_bytes char_signed fuel data = .undefined .signed_overflow := by
  have hI : INT_MAX = 2147483647 := rfl
  exact hex_to_bytes_loop_overflow char_signed data hbig (INT_MAX / 2) fuel 0
    (List.replicate data.length 0) (by omega) hfuel

theorem decode_pairs_map_mod (char_signed : Bool) : ∀ (d : List Int),
    (∀ c ∈ d, is_hex_digit c) →
    (decode_pairs d).map (fun x => int_to_char char_signed x % 256) = decode_pairs d
  | [], _ => rfl
  | [_], _ => rfl
  | hi :: lo :: rest, h => by
    have hhi : is_hex_digit hi := h hi (by simp)
    have hlo : is_hex_digit lo := h lo (by simp)
    have hrest := decode_pairs_map_mod char_signed rest
      (fun c hc => h c (by simp [hc]))
    simp [decode_pairs, int_to_char_pair char_signed hi lo hhi hlo, hrest]

/-- C1, refuted as stated: for the `n = 2` digits `00` the result has `3` bytes, not
`2 * n = 4`. -/
theorem hex_to_bytes_size_counterexample :
    hex_to_bytes true 2 [ord '0', ord '0'] = .returned [0, 0, 0] ∧
    ¬ ∃ out, hex_to_bytes true 2 [ord '0', ord '0'] = .returned out ∧
        out.length = 2 * [ord '0', ord '0'].length := by
  have h : hex_to_bytes true 2 [ord '0', ord '0'] = .returned [0, 0, 0] := by decide
  refine ⟨h, ?_⟩
  rintro ⟨out, hout, hlen⟩
  rw [h] at hout
  cases hout
  simp at hlen

/-- C1, amended: for every even-length sequence of `n` lowercase hex digits, with `n`
representable as `int` (`n ≤ INT_MAX`, the range of the loop counter),
`hex_to_bytes` returns a vector of size exactly `n + n / 2` whose first `n` bytes are
all zero and whose remaining `n / 2` bytes are the decoded bytes, one per pair of
digits (as 8-bit patterns they are the values `16 * hi + lo`). -/
theorem hex_to_bytes_size (char_signed : Bool) (d : List Int) (fuel : Nat)
    (hint : d.length ≤ INT_MAX)
    (heven : d.length % 2 = 0) (hhex : ∀ c ∈ d, is_hex_digit c)
    (hfuel : d.length / 2 < fuel) :
    ∃ out, hex_to_bytes char_signed fuel d = .returned out ∧
      out.length = d.length + d.length / 2 ∧
      out.take d.length = List.replicate d.length 0 ∧
      (out.drop d.length).length = d.length / 2 ∧
      out.drop d.length = (decode_pairs d).map (int_to_char char_signed) ∧
      (out.drop d.length).map (fun b => b % 256) = decode_pairs d := by
  have hlen : (decode_pairs d).length = d.length / 2 :=
    decode_pairs_length (d.length / 2) d (by omega)
  have hdrop : List.drop d.length (List.replicate d.length (0 : Int) ++
      (decode_pairs d).map (int_to_char char_signed)) =
      (decode_pairs d).map (int_to_char char_signed) :=
    List.drop_left' (by simp)
  refine ⟨_, hex_to_bytes_even char_signed d fuel hint heven hfuel, ?_, ?_, ?_, hdrop, ?_⟩
  · simp [hlen]
  · exact List.take_left' (by simp)
  · rw [hdrop]; simp [hlen]
  · rw [hdrop, List.map_map]
    exact decode_pairs_map_mod char_signed d hhex

/-- C1 amended, on the four digits `ff10`. -/
theorem hex_to_bytes_size_witness :
    [ord 'f', ord 'f', ord '1', ord '0'].length ≤ INT_MAX ∧
    [ord 'f', ord 'f', ord '1', ord '0'].length % 2 = 0 ∧
    (∀ c ∈ [ord 'f', ord 'f', ord '1', ord '0'], is_hex_digit c) ∧
    ∃ out, hex_to_bytes false 3 [ord 'f', ord 'f', ord '1', ord '0'] = .returned out ∧
      out.length = 4 + 4 / 2 ∧
      out.take 4 = List.replicate 4 0 ∧
      (out.drop 4).length = 4 / 2 ∧
      out.drop 4 = (decode_pairs [ord 'f', ord 'f', ord '1', ord '0']).map (int_to_char false) ∧
      (out.drop 4).map (fun b => b % 256) = decode_pairs [ord 'f', ord 'f', ord '1', ord '0'] :=
  ⟨by decide, by decide, by decide,
    hex_to_bytes_size false [ord 'f', ord 'f', ord '1', ord '0'] 3
      (by decide) (by decide) (by decide) (by decide)⟩

/-- C10: for every input vector whose length fits an `int`, all the accesses
`data[i]`, `data[i + 1]` of `hex_to_bytes` are within bounds (the run returns) if and
only if the length is even; for an odd length `L` the run ends in the access
`data[L]`, made by the iteration `i = L - 1`. The counter never exceeds the length,
so it stays an `int`. -/
theorem hex_to_bytes_bounds (char_signed : Bool) (data : List Int) (fuel : Nat)
    (hint : data.length ≤ INT_MAX) (hfuel : data.length / 2 < fuel) :
    ((∃ hex, hex_to_bytes char_signed fuel data = .returned hex) ↔
        data.length % 2 = 0) ∧
    ((∀ f, hex_to_bytes char_signed fuel data ≠ .undefined f) ↔ data.length % 2 = 0) ∧
    (data.length % 2 = 1 →
      hex_to_bytes char_signed fuel data =
        .undefined (.out_of_bounds data.length data.length) ∧
      ∀ hex, hex_to_bytes_loop char_signed data 1 (data.length - 1) hex =
        .undefined (.out_of_bounds data.length data.length)) ∧
    (∀ i, i ≤ data.length → i ≤ INT_MAX) := by
  refine ⟨?_, ?_, ?_, fun i hi => le_trans hi hint⟩ <;>
    rcases Nat.mod_two_eq_zero_or_one data.length with h | h
  · have he := hex_to_bytes_even char_signed data fuel hint h hfuel
    exact ⟨fun _ => h, fun _ => ⟨_, he⟩⟩
  · have ho := hex_to_bytes_odd char_signed data fuel hint h hfuel
    refine ⟨?_, fun h0 => by omega⟩
    rintro ⟨hex, hhex⟩
    rw [ho] at hhex
    cases hhex
  · have he := hex_to_bytes_even char_signed data fuel hint h hfuel
    exact ⟨fun _ => h, fun _ f => by simp [he]⟩
  · have ho := hex_to_bytes_odd char_signed data fuel hint h hfuel
    refine ⟨?_, fun h0 => by omega⟩
    intro hall
    exact absurd ho (hall _)
  · intro h1; omega
  · have ho := hex_to_bytes_odd char_signed data fuel hint h hfuel
    refine fun _ => ⟨ho, ?_⟩
    intro hex
    exact hex_to_bytes_loop_odd char_signed data hint 0 1 (data.length - 1) hex
      (by omega) (by omega)

/-- C10 on the three digits `abc`: the iteration `i = 2` reads `data[3]`. -/
theorem hex_to_bytes_bounds_witness :
    [ord 'a', ord 'b', ord 'c'].length ≤ INT_MAX ∧
    hex_to_bytes true 2 [ord 'a', ord 'b', ord 'c'] = .undefined (.out_of_bounds 3 3) :=
  ⟨by decide,
    ((hex_to_bytes_bounds true [ord 'a', ord 'b', ord 'c'] 2
      (by decide) (by decide)).2.2.1 (by decide)).1⟩

/-- C5, the run on the failing input: on the single digit `a` no error is reported;
the only iteration reads `data[1]` of a vector of size `1`. -/
theorem hex_to_bytes_odd_digit_count :
    hex_to_bytes true 1 [ord 'a'] = .undefined (.out_of_bounds 1 1) ∧
    hex_to_bytes false 1 [ord 'a'] = .undefined (.out_of_bounds 1 1) := by
  constructor <;> decide

/-! ## `MyStreamZ` -/

/-- The constructor establishes the representation invariant. -/
theorem MyStreamZ.init_wf (data : List Int) (h : data.length < SIZE_MODULUS) :
    (MyStreamZ.init data).wf := by
  refine ⟨rfl, h, ?_⟩
  show 0 < SIZE_MODULUS
  decide

theorem memcpy_of_le (buf : List Int) (position nSize : Nat)
    (h : position + nSize ≤ buf.length) :
    memcpy buf position nSize = some ((buf.drop position).take nSize) := by
  simp [memcpy, h]

/-- When the sum `position + nSize` does not wrap, the guard of `read` is the exact
comparison with the bytes left. -/
theorem MyStreamZ.read_throws_of_no_wrap (s : MyStreamZ) (nSize : Nat)
    (hsum : s.position + nSize < SIZE_MODULUS) (hshort : s.size - s.position < nSize)
    (hpos : s.position ≤ s.size) :
    s.read nSize = .threw "Read attempted past buffer limit" s := by
  have hgt : (s.position + nSize) % SIZE_MODULUS > s.size := by
    rw [Nat.mod_eq_of_lt hsum]; omega
  simp [MyStreamZ.read, hgt]

/-- C2, the run on the failing input: a stream over a one-byte buffer whose byte has
been read (`position = size = 1`) is asked for `2 ^ 64 - 1` bytes. No byte is
left, yet `1 + (2 ^ 64 - 1)` wraps to `0`, the guard does not fire, nothing is
thrown, and `memcpy` is called on a range outside the buffer. -/
theorem MyStreamZ.read_past_limit_not_thrown :
    (MyStreamZ.init [7]).read 1 = .ok [7] { size := 1, buf := [7], position := 1 } ∧
    MyStreamZ.wf { size := 1, buf := [7], position := 1 } ∧
    (1 - 1 < 2 ^ 64 - 1 ∧ 2 ^ 64 - 1 < SIZE_MODULUS) ∧
    (1 + (2 ^ 64 - 1)) % SIZE_MODULUS = 0 ∧
    MyStreamZ.read { size := 1, buf := [7], position := 1 } (2 ^ 64 - 1) = .undefined ∧
    ∀ what after,
      MyStreamZ.read { size := 1, buf := [7], position := 1 } (2 ^ 64 - 1) ≠
        .threw what after := by
  have h : MyStreamZ.read { size := 1, buf := [7], position := 1 } (2 ^ 64 - 1) =
      .undefined := by decide
  refine ⟨by decide, by decide, by decide, by decide, h, ?_⟩
  intro what after
  rw [h]
  exact fun hne => ReadResult.noConfusion hne

/-- C3: for every stream state with `position ≤ size` and every `nSize` with
`nSize ≤ size - position`, `read` succeeds and the destination receives exactly the
`nSize` bytes `buf[position]`, ..., `buf[position + nSize - 1]`, in order; a freshly
constructed stream can read its whole buffer. -/
theorem MyStreamZ.read_exact :
    (∀ (s : MyStreamZ) (nSize : Nat), s.wf → s.position ≤ s.size →
      nSize ≤ s.size - s.position →
      ∃ pch after, s.read nSize = .ok pch after ∧
        pch.length = nSize ∧
        pch = (s.buf.drop s.position).take nSize ∧
        (∀ k, k < nSize → ∃ b, s.buf[s.position + k]? = some b ∧ pch[k]? = some b)) ∧
    (∀ data : List Int, data.length < SIZE_MODULUS →
      (MyStreamZ.init data).position = 0 ∧ (MyStreamZ.init data).size = data.length ∧
      (MyStreamZ.init data).read data.length =
        .ok data { size := data.length, buf := data, position := data.length }) := by
  have hgen : ∀ (s : MyStreamZ) (nSize : Nat), s.wf → s.position ≤ s.size →
      nSize ≤ s.size - s.position →
      s.read nSize = .ok ((s.buf.drop s.position).take nSize)
        { s with position := s.position + nSize } := by
    intro s nSize hwf hpos hn
    obtain ⟨hsize, hlt, -⟩ := hwf
    have hle : s.position + nSize ≤ s.size := by omega
    have hmod : (s.position + nSize) % SIZE_MODULUS = s.position + nSize :=
      Nat.mod_eq_of_lt (by omega)
    have hguard : ¬ (s.position + nSize) % SIZE_MODULUS > s.size := by
      rw [hmod]; omega
    rw [MyStreamZ.read, if_neg hguard, memcpy_of_le s.buf s.position nSize (by omega), hmod]
  constructor
  · intro s nSize hwf hpos hn
    have hsize := hwf.1
    refine ⟨_, _, hgen s nSize hwf hpos hn, ?_, rfl, ?_⟩
    · simp; omega
    · intro k hk
      have hidx : s.position + k < s.buf.length := by omega
      refine ⟨s.buf[s.position + k], List.getElem?_eq_getElem hidx, ?_⟩
      rw [List.getElem?_take_of_lt hk, List.getElem?_drop, List.getElem?_eq_getElem hidx]
  · intro data hdata
    refine ⟨rfl, rfl, ?_⟩
    have h := hgen (MyStreamZ.init data) data.length (MyStreamZ.init_wf data hdata)
      (by simp [MyStreamZ.init]) (by simp [MyStreamZ.init])
    simpa [MyStreamZ.init] using h

/-- C3 on the buffer `1 2 3 4` at position `1`: two bytes are read, `2 3`; and a fresh
stream over `1 2 3 4` reads all four bytes. -/
theorem MyStreamZ.read_exact_witness :
    MyStreamZ.wf { size := 4, buf := [1, 2, 3, 4], position := 1 } ∧
    (∃ pch after,
      MyStreamZ.read { size := 4, buf := [1, 2, 3, 4], position := 1 } 2 = .ok pch after ∧
      pch.length = 2 ∧ pch = [2, 3]) ∧
    (MyStreamZ.init [1, 2, 3, 4]).read 4 =
      .ok [1, 2, 3, 4] { size := 4, buf := [1, 2, 3, 4], position := 4 } := by
  refine ⟨by decide, ?_, ?_⟩
  · obtain ⟨pch, after, h, hlen, hpch, -⟩ :=
      MyStreamZ.read_exact.1 { size := 4, buf := [1, 2, 3, 4], position := 1 } 2
        (by decide) (by decide) (by decide)
    exact ⟨pch, after, h, hlen, by rw [hpch]; decide⟩
  · exact (MyStreamZ.read_exact.2 [1, 2, 3, 4] (by decide)).2.2

/-- C4: for every stream state and every `nSize`, a `read` that succeeds advances the
head by exactly `nSize`, a `read` that throws leaves it unchanged; `size` and the
buffer are unchanged either way (and the state stays well formed, the head never
moving backwards nor past `size`). -/
theorem MyStreamZ.read_frame (s : MyStreamZ) (nSize : Nat) (hwf : s.wf) :
    (∀ pch after, s.read nSize = .ok pch after →
      after.position = s.position + nSize ∧ after.size = s.size ∧ after.buf = s.buf ∧
      after.wf ∧ s.position ≤ after.position ∧ after.position ≤ after.size) ∧
    (∀ what after, s.read nSize = .threw what after →
      after.position = s.position ∧ after.size = s.size ∧ after.buf = s.buf) := by
  obtain ⟨hsize, hlt, -⟩ := hwf
  by_cases hguard : (s.position + nSize) % SIZE_MODULUS > s.size
  · have hr : s.read nSize = .threw "Read attempted past buffer limit" s := by
      rw [MyStreamZ.read, if_pos hguard]
    constructor
    · intro pch after h
      rw [hr] at h
      cases h
    · intro what after h
      rw [hr] at h
      cases h
      exact ⟨rfl, rfl, rfl⟩
  · by_cases hcopy : s.position + nSize ≤ s.buf.length
    · have hmod : (s.position + nSize) % SIZE_MODULUS = s.position + nSize :=
        Nat.mod_eq_of_lt (by omega)
      have hr : s.read nSize = .ok ((s.buf.drop s.position).take nSize)
          { s with position := s.position + nSize } := by
        rw [MyStreamZ.read, if_neg hguard, memcpy_of_le s.buf s.position nSize hcopy, hmod]
      constructor
      · intro pch after h
        rw [hr] at h
        cases h
        refine ⟨rfl, rfl, rfl, ⟨hsize, hlt, ?_⟩, ?_, ?_⟩
        · show s.position + nSize < SIZE_MODULUS
          omega
        · show s.position ≤ s.position + nSize
          omega
        · show s.position + nSize ≤ s.size
          omega
      · intro what after h
        rw [hr] at h
        cases h
    · have hr : s.read nSize = .undefined := by
        simp [MyStreamZ.read, hguard, memcpy, hcopy]
      constructor
      · intro pch after h
        rw [hr] at h
        cases h
      · intro what after h
        rw [hr] at h
        cases h

/-- C4 on the buffer `1 2 3 4` at position `1`: reading two bytes moves the head to `3`,
asking for four throws and leaves the head at `1`. -/
theorem MyStreamZ.read_frame_witness :
    MyStreamZ.wf { size := 4, buf := [1, 2, 3, 4], position := 1 } ∧
    MyStreamZ.read { size := 4, buf := [1, 2, 3, 4], position := 1 } 2 =
      .ok [2, 3] { size := 4, buf := [1, 2, 3, 4], position := 3 } ∧
    (3 = 1 + 2 ∧ 4 = 4) ∧
    MyStreamZ.read { size := 4, buf := [1, 2, 3, 4], position := 1 } 4 =
      .threw "Read attempted past buffer limit"
        { size := 4, buf := [1, 2, 3, 4], position := 1 } ∧
    (1 = 1 ∧ 4 = 4) := by
  have hok : MyStreamZ.read { size := 4, buf := [1, 2, 3, 4], position := 1 } 2 =
      .ok [2, 3] { size := 4, buf := [1, 2, 3, 4], position := 3 } := by decide
  have hthrew : MyStreamZ.read { size := 4, buf := [1, 2, 3, 4], position := 1 } 4 =
      .threw "Read attempted past buffer limit"
        { size := 4, buf := [1, 2, 3, 4], position := 1 } := by decide
  have h2 := MyStreamZ.read_frame { size := 4, buf := [1, 2, 3, 4], position := 1 } 2
    (by decide)
  have h4 := MyStreamZ.read_frame { size := 4, buf := [1, 2, 3, 4], position := 1 } 4
    (by decide)
  obtain ⟨a1, a2, -⟩ := h2.1 _ _ hok
  obtain ⟨b1, b2, -⟩ := h4.2 _ _ hthrew
  exact ⟨by decide, hok, ⟨a1, a2⟩, hthrew, ⟨b1, b2⟩⟩

/-! ## The statistics of `main` -/

/-- The summing loop adds up the samples from index `i` on. -/
theorem sum_loop_eq (elapsed : List Int) (hlen : elapsed.length = iters) :
    ∀ (n fuel i : Nat) (sum : Int), i + n = iters → n < fuel →
      sum_loop elapsed fuel i sum = .returned (sum + (elapsed.drop i).sum) := by
  intro n
  induction n with
  | zero =>
    intro fuel i sum hi hfuel
    obtain ⟨f, rfl⟩ : ∃ f, fuel = f + 1 := ⟨fuel - 1, by omega⟩
    have hnot : ¬ i < iters := by omega
    have hdrop : elapsed.drop i = [] := List.drop_eq_nil_of_le (by omega)
    simp [sum_loop, hnot, hdrop]
  | succ n ih =>
    intro fuel i sum hi hfuel
    obtain ⟨f, rfl⟩ : ∃ f, fuel = f + 1 := ⟨fuel - 1, by omega⟩
    have h0 : i < iters := by omega
    have h1 : i < elapsed.length := by omega
    have hrec := ih f (i + 1) (sum + elapsed[i]) (by omega) (by omega)
    simp only [sum_loop, h0, if_true, List.getElem?_eq_getElem h1, hrec,
      List.drop_eq_getElem_cons h1, List.sum_cons]
    rw [add_assoc]

/-- A sum of samples lies between the length times a lower bound and the length
times an upper bound of the samples. -/
theorem sum_bounds (lo hi : Int) : ∀ (l : List Int), (∀ e ∈ l, lo ≤ e ∧ e ≤ hi) →
    lo * l.length ≤ l.sum ∧ l.sum ≤ hi * l.length
  | [], _ => by simp
  | e :: l, h => by
    have he := h e (by simp)
    have hl := sum_bounds lo hi l (fun x hx => h x (by simp [hx]))
    simp only [List.sum_cons, List.length_cons, Nat.cast_add, Nat.cast_one]
    constructor <;> nlinarith [he.1, he.2, hl.1, hl.2]

/-- The truncating quotient by `100` of a sum of `100` values between `lo` and `hi`
lies between `lo` and `hi`. -/
theorem tdiv_100_bounds (a lo hi : Int) (h1 : lo * 100 ≤ a) (h2 : a ≤ hi * 100) :
    lo ≤ a.tdiv 100 ∧ a.tdiv 100 ≤ hi := by
  rcases le_or_lt 0 a with h | h
  · rw [Int.tdiv_eq_ediv h (by decide)]
    omega
  · have hq : a.tdiv 100 = -((-a) / 100) := by
      rw [← Int.tdiv_eq_ediv (by omega) (by decide), Int.neg_tdiv, neg_neg]
    rw [hq]
    omega

/-- C8: for every array of the 100 samples of `elapsed`, `main` reports as `min` the
smallest sample, as `max` the largest sample and as `average` the truncated integer
quotient of the sum of all samples by `100`, and `min ≤ average ≤ max`; the
`long long` sum, at every stage, is far from overflowing. -/
theorem main_stats_spec (elapsed : List Int) (fuel : Nat)
    (hlen : elapsed.length = iters)
    (hint : ∀ e ∈ elapsed, -(2 ^ 31) ≤ e ∧ e ≤ 2 ^ 31 - 1)
    (hfuel : iters < fuel) :
    ∃ st, main_stats fuel elapsed = .returned st ∧
      (elapsed.insertionSort (· ≤ ·))[0]? = some st.min ∧
      (elapsed.insertionSort (· ≤ ·))[99]? = some st.max ∧
      (st.min ∈ elapsed ∧ ∀ e ∈ elapsed, st.min ≤ e) ∧
      (st.max ∈ elapsed ∧ ∀ e ∈ elapsed, e ≤ st.max) ∧
      st.average = Int.tdiv elapsed.sum 100 ∧
      (st.min ≤ st.average ∧ st.average ≤ st.max) ∧
      (∀ k, -(2 ^ 63) ≤ (elapsed.take k).sum ∧ (elapsed.take k).sum ≤ 2 ^ 63 - 1) := by
  have hsum : sum_loop elapsed fuel 0 0 = .returned elapsed.sum := by
    have h := sum_loop_eq elapsed hlen iters fuel 0 0 (by omega) hfuel
    simpa using h
  have hperm := List.perm_insertionSort (· ≤ ·) elapsed
  have hsorted := List.sorted_insertionSort (· ≤ ·) elapsed
  have hslen : (elapsed.insertionSort (· ≤ ·)).length = 100 := by
    rw [List.length_insertionSort, hlen]; rfl
  have h0 : 0 < (elapsed.insertionSort (· ≤ ·)).length := by omega
  have h99 : 99 < (elapsed.insertionSort (· ≤ ·)).length := by omega
  have hmin : ∀ e ∈ elapsed, (elapsed.insertionSort (· ≤ ·))[0] ≤ e := by
    intro e he
    obtain ⟨j, hj, rfl⟩ := List.mem_iff_getElem.1 (hperm.mem_iff.2 he)
    rcases Nat.eq_zero_or_pos j with rfl | hpos
    · exact le_refl _
    · exact List.pairwise_iff_getElem.1 hsorted 0 j h0 hj hpos
  have hmax : ∀ e ∈ elapsed, e ≤ (elapsed.insertionSort (· ≤ ·))[99] := by
    intro e he
    obtain ⟨j, hj, rfl⟩ := List.mem_iff_getElem.1 (hperm.mem_iff.2 he)
    rcases Nat.lt_or_ge j 99 with hlt | hge
    · exact List.pairwise_iff_getElem.1 hsorted j 99 hj h99 hlt
    · have : j = 99 := by omega
      subst this
      exact le_refl _
  have hb := sum_bounds _ _ elapsed (fun e he => ⟨hmin e he, hmax e he⟩)
  have hl : ((elapsed.length : Nat) : Int) = 100 := by rw [hlen]; rfl
  rw [hl] at hb
  refine ⟨{ min := (elapsed.insertionSort (· ≤ ·))[0],
            average := Int.tdiv elapsed.sum 100,
            max := (elapsed.insertionSort (· ≤ ·))[99] }, ?_,
    List.getElem?_eq_getElem h0, List.getElem?_eq_getElem h99,
    ⟨hperm.mem_iff.1 (List.getElem_mem _), hmin⟩,
    ⟨hperm.mem_iff.1 (List.getElem_mem _), hmax⟩, rfl,
    tdiv_100_bounds _ _ _ hb.1 hb.2, ?_⟩
  · have e99 : iters - 1 = 99 := rfl
    simp only [main_stats, hsum, e99, List.getElem?_eq_getElem h0,
      List.getElem?_eq_getElem h99]
    rfl
  · intro k
    have hk := sum_bounds (-(2 ^ 31)) (2 ^ 31 - 1) (elapsed.take k)
      (fun e he => hint e (List.mem_of_mem_take he))
    have hkl : (elapsed.take k).length ≤ 100 := by
      rw [List.length_take, hlen]
      exact Nat.min_le_right _ _
    have hkl' : (((elapsed.take k).length : Nat) : Int) ≤ 100 := by exact_mod_cast hkl
    have hkl0 : (0 : Int) ≤ (((elapsed.take k).length : Nat) : Int) := Int.ofNat_nonneg _
    constructor <;> nlinarith [hk.1, hk.2]

/-- C8 on 99 samples of `-1` and one of `-2`: the sum is `-101`, its truncated quotient
by `100` is `-1`, and `-2 ≤ -1 ≤ -1`. -/
theorem main_stats_spec_witness :
    (List.replicate 99 (-1) ++ [-2] : List Int).length = iters ∧
    (∀ e ∈ (List.replicate 99 (-1) ++ [-2] : List Int), -(2 ^ 31) ≤ e ∧ e ≤ 2 ^ 31 - 1) ∧
    main_stats 101 (List.replicate 99 (-1) ++ [-2]) =
      .returned { min := -2, average := -1, max := -1 } := by
  have hlen : (List.replicate 99 (-1) ++ [-2] : List Int).length = iters := rfl
  have hint : ∀ e ∈ (List.replicate 99 (-1) ++ [-2] : List Int),
      -(2 ^ 31) ≤ e ∧ e ≤ 2 ^ 31 - 1 := by simp
  obtain ⟨st, hret, -, -, hmin, hmax, havg, -, -⟩ :=
    main_stats_spec (List.replicate 99 (-1) ++ [-2]) 101 hlen hint (by decide)
  refine ⟨hlen, hint, ?_⟩
  have h1 : st.min = -2 := by
    have ha := hmin.2 (-2) (by simp)
    have hb := hmin.1
    simp only [List.mem_append, List.mem_replicate, List.mem_singleton] at hb
    omega
  have h2 : st.max = -1 := by
    have ha := hmax.2 (-1) (by simp)
    have hb := hmax.1
    simp only [List.mem_append, List.mem_replicate, List.mem_singleton] at hb
    omega
  have h3 : st.average = -1 := by
    rw [havg]
    simp only [List.sum_append, List.sum_replicate, List.sum_singleton]
    decide
  rw [hret]
  obtain ⟨mn, av, mx⟩ := st
  simp only at h1 h2 h3
  rw [h1, h2, h3]

end BenchCpp
